import Mathlib

/-!
Shallow embedding of `src/app.py` (multi-source news summarizer).

Python strings are modelled as `List Char` (`Str`).  The external
capabilities are parameters:
  * `gen : Str → Option Str` models tokenizer + `model.generate` + decode
    applied to the full prompt string; `none` models a raised exception
    (spec §6 assumes deterministic generation, so one function suffices);
  * `fetch : Str → Option Str` models `get_article_text` (URL → extracted
    text, `none` = the `except` branch returning `None`).

Python's `str.split()` (whitespace split) is modelled with
`Char.isWhitespace`; the while-loop in `summarize_text` is modelled with
well-founded recursion on `text.length - chunk.length`, which decreases
because each iteration grows the chunk by at least two characters while
the loop condition requires `chunk.length < text.length`.
-/

set_option maxHeartbeats 1600000
set_option maxRecDepth 100000

abbrev Str := List Char

/-- Model of Python `str.split()` (split on whitespace runs, no empties):
accumulator holds the current in-progress word reversed. -/
def pySplitAux (cur : Str) : Str → List Str
  | [] => if cur = [] then [] else [cur.reverse]
  | c :: rest =>
    if c.isWhitespace then
      if cur = [] then pySplitAux [] rest else cur.reverse :: pySplitAux [] rest
    else pySplitAux (c :: cur) rest

def pySplit (s : Str) : List Str := pySplitAux [] s

/-- Model of Python `sep.join(xs)`. -/
def pyJoin (sep : Str) : List Str → Str
  | [] => []
  | [x] => x
  | x :: xs => x ++ sep ++ pyJoin sep xs

/-- Line 56: `text = ' '.join(text.split())`. -/
def clean (s : Str) : Str := pyJoin [' '] (pySplit s)

/-- Lines 23-25: `count_words`. -/
def count_words (s : Str) : Nat := (pySplit s).length

/-- Model of Python `str.strip()`: drop whitespace from both ends. -/
def pyStrip (s : Str) : Str :=
  ((s.dropWhile Char.isWhitespace).reverse.dropWhile Char.isWhitespace).reverse

/-- Model of Python `str.split('\n')` (keeps empty parts): returns the
first line and the remaining lines. -/
def splitLinesNE : Str → Str × List Str
  | [] => ([], [])
  | c :: rest =>
    let r := splitLinesNE rest
    if c = '\n' then ([], r.1 :: r.2) else (c :: r.1, r.2)

def splitLines (s : Str) : List Str := (splitLinesNE s).1 :: (splitLinesNE s).2

/-- Line 138: `[line.strip() for line in urls_input.split('\n') if line.strip()]`
(filtering by strip-nonempty then keeping the stripped line is the same as
stripping every line and keeping the nonempty ones). -/
def parse_urls (s : Str) : List Str :=
  ((splitLines s).map pyStrip).filter (fun l => l ≠ [])

/-- Lines 58-62: input window size by role. -/
def max_input (is_final : Bool) : Nat := if is_final then 2000 else 1500

/-- Line 71: `input_text = "summarize: " + chunk` (the prompt handed to the
model capability). -/
def prompt (chunk : Str) : Str := ("summarize: ").data ++ chunk

/-- Model of Python `str.rfind(c)`: highest index of `c`, or `-1`. -/
def pyRfind (s : Str) (c : Char) : Int :=
  match s with
  | [] => -1
  | a :: rest =>
    let r := pyRfind rest c
    if 0 ≤ r then r + 1 else if a = c then 0 else -1

/-- Line 119: `summary.endswith(('.', '!', '?'))`. -/
def pyEndsSentence (s : Str) : Bool :=
  match s.getLast? with
  | some c => (c == '.') || (c == '!') || (c == '?')
  | none => false

/-- Lines 114-122: the final-role 1500-word cap with the backward search
for the last period. -/
def capSummary (summary : Str) : Str :=
  if 1500 < count_words summary then
    let words := pySplit summary
    let s := pyJoin [' '] (words.take 1500)
    if pyEndsSentence s then s
    else
      let last_period := pyRfind s '.'
      if 100 < last_period then s.take (last_period.toNat + 1) else s
  else summary

/-- Lines 93-112: the final-role word-count growth loop (`while word_count
< 200 and len(chunk) < len(text)`).  First component is `some (chunk,
summary)` on normal exit (loop condition false, or `additional_text`
empty and `break`) and `none` when `gen` raises inside the loop; the
second component counts iterations. -/
def growLoopC (gen : Str → Option Str) (text chunk summary : Str) :
    Option (Str × Str) × Nat :=
  if h : count_words summary < 200 ∧ chunk.length < text.length then
    let additional := (text.drop chunk.length).take 500
    if ha : additional = [] then (some (chunk, summary), 0)
    else
      match gen (prompt (chunk ++ ' ' :: additional)) with
      | none => (none, 1)
      | some s =>
        let r := growLoopC gen text (chunk ++ ' ' :: additional) s
        (r.1, r.2 + 1)
  else (some (chunk, summary), 0)
termination_by text.length - chunk.length
decreasing_by
  simp only [List.length_append, List.length_cons]
  omega

def growLoop (gen : Str → Option Str) (text chunk summary : Str) :
    Option (Str × Str) :=
  (growLoopC gen text chunk summary).1

def growLoopCount (gen : Str → Option Str) (text chunk summary : Str) : Nat :=
  (growLoopC gen text chunk summary).2

/-- Lines 50-126: `summarize_text(text, is_final)` with the model
capability abstracted as `gen`; `gen _ = none` models the `except` branch
(line 125-126), which returns the cleaned `text`. -/
def summarize_text (gen : Str → Option Str) (text0 : Str) (is_final : Bool) :
    Str :=
  if text0 = [] then []
  else
    let text := clean text0
    let chunk := text.take (max_input is_final)
    if chunk.length < 50 then text
    else
      match gen (prompt chunk) with
      | none => text
      | some summary =>
        if is_final then
          match growLoop gen text chunk summary with
          | none => text
          | some r => capSummary r.2
        else summary

/-- Line 149's acceptance test: `if raw_text and len(raw_text) > 50`. -/
def extraction_ok : Option Str → Prop
  | some t => t ≠ [] ∧ 50 < t.length
  | none => False

instance : DecidablePred extraction_ok := fun r =>
  match r with
  | some _ => by unfold extraction_ok; infer_instance
  | none => by unfold extraction_ok; infer_instance

/-- Lines 145-155: one iteration of the per-URL loop; the second component
is the per-article summary when the URL succeeded (`none` = the warning
branch, line 155). -/
def process_url (fetch gen : Str → Option Str) (url : Str) : Str × Option Str :=
  match fetch url with
  | some raw_text =>
    if raw_text ≠ [] ∧ 50 < raw_text.length then
      (url, some (summarize_text gen raw_text false))
    else (url, none)
  | none => (url, none)

/-- Outcome of one button press (lines 134-179): the two rejection
messages, the all-failed error (line 179) and the success path carrying
the final summary (line 162). -/
inductive PipelineResult where
  | emptyInput : PipelineResult
  | tooManyUrls : PipelineResult
  | noValidText (results : List (Str × Option Str)) : PipelineResult
  | success (results : List (Str × Option Str)) (final_summary : Str) :
      PipelineResult
deriving DecidableEq

/-- Lines 134-179: the module-level button handler. -/
def run_pipeline (fetch gen : Str → Option Str) (urls_input : Str) :
    PipelineResult :=
  if pyStrip urls_input = [] then .emptyInput
  else
    let url_list := parse_urls urls_input
    if 5 < url_list.length then .tooManyUrls
    else
      let results := url_list.map (process_url fetch gen)
      let all_summaries := results.filterMap (fun r => r.2)
      if all_summaries ≠ [] then
        .success results (summarize_text gen (pyJoin [' '] all_summaries) true)
      else .noValidText results

example : pySplit ("  a  bc ").data = [['a'], ['b', 'c']] := by decide
example : clean ("a  b").data = ['a', ' ', 'b'] := by decide
example : count_words ("one two three").data = 3 := by decide
example : pyStrip (" ab ").data = ['a', 'b'] := by decide
example : splitLines ("a\n\nb").data = [['a'], [], ['b']] := by decide
example : parse_urls (" a \n\n b\n").data = [['a'], ['b']] := by decide
example : pyRfind ("a.b.c").data '.' = 3 := by decide
example : pyRfind ("abc").data '.' = -1 := by decide
example : pyEndsSentence ("ab!").data = true := by decide
example : summarize_text (fun _ => none) ("a  b").data false = ['a', ' ', 'b'] := by
  decide

/-! ### Lemmas about `pySplit` and `pyJoin` -/

theorem pySplitAux_sound :
    ∀ (s cur : Str), (∀ c ∈ cur, c.isWhitespace = false) →
      ∀ w ∈ pySplitAux cur s, w ≠ [] ∧ ∀ c ∈ w, c.isWhitespace = false := by
  intro s
  induction s with
  | nil =>
    intro cur hcur w hw
    by_cases hc : cur = []
    · simp [pySplitAux, hc] at hw
    · simp [pySplitAux, hc] at hw
      subst hw
      refine ⟨by simpa using hc, ?_⟩
      intro c hcmem
      exact hcur c (List.mem_reverse.mp hcmem)
  | cons a rest ih =>
    intro cur hcur w hw
    by_cases ha : a.isWhitespace
    · by_cases hc : cur = []
      · simp [pySplitAux, ha, hc] at hw
        exact ih [] (by simp) w hw
      · simp [pySplitAux, ha, hc] at hw
        rcases hw with hw | hw
        · subst hw
          refine ⟨by simpa using hc, ?_⟩
          intro c hcmem
          exact hcur c (List.mem_reverse.mp hcmem)
        · exact ih [] (by simp) w hw
    · simp [pySplitAux, ha] at hw
      refine ih (a :: cur) ?_ w hw
      intro c hcmem
      rcases List.mem_cons.mp hcmem with rfl | hcm
      · simpa using ha
      · exact hcur c hcm

theorem pySplit_sound (s : Str) :
    ∀ w ∈ pySplit s, w ≠ [] ∧ ∀ c ∈ w, c.isWhitespace = false :=
  pySplitAux_sound s [] (by simp)

theorem pySplitAux_word_append :
    ∀ (w : Str), (∀ c ∈ w, c.isWhitespace = false) →
      ∀ (cur s : Str), pySplitAux cur (w ++ s) = pySplitAux (w.reverse ++ cur) s := by
  intro w
  induction w with
  | nil => intro _ cur s; simp
  | cons a w' ih =>
    intro hw cur s
    have ha : a.isWhitespace = false := hw a (by simp)
    have hw' : ∀ c ∈ w', c.isWhitespace = false := fun c hc => hw c (by simp [hc])
    calc pySplitAux cur ((a :: w') ++ s)
        = pySplitAux (a :: cur) (w' ++ s) := by simp [pySplitAux, ha]
      _ = pySplitAux (w'.reverse ++ (a :: cur)) s := ih hw' (a :: cur) s
      _ = pySplitAux ((a :: w').reverse ++ cur) s := by
          simp [List.reverse_cons, List.append_assoc]

theorem pySplit_pyJoin :
    ∀ ws : List Str, (∀ w ∈ ws, w ≠ [] ∧ ∀ c ∈ w, c.isWhitespace = false) →
      pySplit (pyJoin [' '] ws) = ws := by
  intro ws
  induction ws with
  | nil => intro _; rfl
  | cons x tail ih =>
    intro h
    have hx : x ≠ [] := (h x (by simp)).1
    have hxw : ∀ c ∈ x, c.isWhitespace = false := (h x (by simp)).2
    cases tail with
    | nil =>
      show pySplitAux [] (pyJoin [' '] [x]) = [x]
      have : pyJoin [' '] [x] = x ++ [] := by simp [pyJoin]
      rw [this, pySplitAux_word_append x hxw []]
      simp [pySplitAux, hx]
    | cons y rest =>
      have hjoin : pyJoin [' '] (x :: y :: rest) =
          x ++ (' ' :: pyJoin [' '] (y :: rest)) := by
        simp [pyJoin, List.append_assoc]
      have hxrev : x.reverse ≠ [] := by simpa using hx
      have hws : (' ' : Char).isWhitespace = true := by decide
      show pySplitAux [] (pyJoin [' '] (x :: y :: rest)) = x :: y :: rest
      rw [hjoin, pySplitAux_word_append x hxw [], List.append_nil]
      have hstep : pySplitAux x.reverse (' ' :: pyJoin [' '] (y :: rest)) =
          x.reverse.reverse :: pySplitAux [] (pyJoin [' '] (y :: rest)) := by
        simp [pySplitAux, hws, hxrev]
      rw [hstep, List.reverse_reverse]
      exact congrArg (x :: ·) (ih (fun w hw => h w (by simp [hw])))

theorem clean_idem (s : Str) : clean (clean s) = clean s := by
  show pyJoin [' '] (pySplit (pyJoin [' '] (pySplit s))) = pyJoin [' '] (pySplit s)
  rw [pySplit_pyJoin (pySplit s) (pySplit_sound s)]

theorem mem_pyJoin {c : Char} :
    ∀ (sep : Str) (ws : List Str), c ∈ pyJoin sep ws →
      c ∈ sep ∨ ∃ w ∈ ws, c ∈ w := by
  intro sep ws
  induction ws with
  | nil => intro h; simp [pyJoin] at h
  | cons x tail ih =>
    cases tail with
    | nil => intro h; exact Or.inr ⟨x, by simp, by simpa [pyJoin] using h⟩
    | cons y rest =>
      intro h
      simp only [pyJoin, List.append_assoc, List.mem_append] at h
      rcases h with h | h | h
      · exact Or.inr ⟨x, by simp, h⟩
      · exact Or.inl h
      · rcases ih h with h | ⟨w, hw, hcw⟩
        · exact Or.inl h
        · exact Or.inr ⟨w, by simp [hw], hcw⟩

theorem pyJoin_snoc (sep v : Str) :
    ∀ ws : List Str, ws ≠ [] →
      pyJoin sep (ws ++ [v]) = pyJoin sep ws ++ sep ++ v := by
  intro ws
  induction ws with
  | nil => intro h; exact absurd rfl h
  | cons x tail ih =>
    intro _
    cases tail with
    | nil => simp [pyJoin]
    | cons y rest =>
      have hthis := ih (by simp)
      calc pyJoin sep ((x :: y :: rest) ++ [v])
          = x ++ sep ++ pyJoin sep ((y :: rest) ++ [v]) := rfl
        _ = x ++ sep ++ (pyJoin sep (y :: rest) ++ sep ++ v) := by rw [hthis]
        _ = (x ++ sep ++ pyJoin sep (y :: rest)) ++ sep ++ v := by
            simp [List.append_assoc]

theorem pyJoin_replicate_singleton_length (a : Char) :
    ∀ n : Nat, (pyJoin [' '] (List.replicate (n + 1) [a])).length = 2 * n + 1 := by
  intro n
  induction n with
  | zero => rfl
  | succ m ih =>
    rw [List.replicate_succ]
    have hrep : List.replicate (m + 1) [a] = [a] :: List.replicate m [a] :=
      List.replicate_succ [a] m
    calc (pyJoin [' '] ([a] :: List.replicate (m + 1) [a])).length
        = ([a] ++ [' '] ++ pyJoin [' '] (List.replicate (m + 1) [a])).length := by
          rw [hrep]; rfl
      _ = 2 + (pyJoin [' '] (List.replicate (m + 1) [a])).length := by
          simp [List.length_append]; omega
      _ = 2 * (m + 1) + 1 := by rw [ih]; ring

/-! ### Evaluation lemma for `summarize_text` -/

theorem summarize_text_eq (gen : Str → Option Str) (t : Str) (b : Bool)
    (h0 : t ≠ []) :
    summarize_text gen t b =
      if ((clean t).take (max_input b)).length < 50 then clean t
      else
        match gen (prompt ((clean t).take (max_input b))) with
        | none => clean t
        | some summary =>
          if b then
            match growLoop gen (clean t) ((clean t).take (max_input b)) summary with
            | none => clean t
            | some r => capSummary r.2
          else summary := by
  unfold summarize_text
  rw [if_neg h0]

/-- C10: the output of `summarize_text` depends on its text argument only
through its whitespace-normalized form: summarizing `t` and summarizing
`clean t` (runs of whitespace collapsed to single spaces, outer whitespace
removed) give the same result for every role and every deterministic
model. -/
theorem c10_whitespace_normalized_input (gen : Str → Option Str) (t : Str)
    (b : Bool) : summarize_text gen t b = summarize_text gen (clean t) b := by
  by_cases h0 : t = []
  · subst h0; rfl
  · by_cases h1 : clean t = []
    · have hR : summarize_text gen (clean t) b = [] := by rw [h1]; rfl
      rw [hR, summarize_text_eq gen t b h0]
      simp [h1, max_input]
    · rw [summarize_text_eq gen t b h0, summarize_text_eq gen (clean t) b h1,
        clean_idem]

/-- C7 (amended): when the truncated window (`max_input` characters of the
cleaned text) is shorter than 50 characters, `summarize_text` returns the
whitespace-normalized input — not the raw input — and performs no model
invocation (the result does not depend on `gen`). -/
theorem c7_short_window_returns_clean (gen gen' : Str → Option Str) (t : Str)
    (b : Bool) (h : ((clean t).take (max_input b)).length < 50) :
    summarize_text gen t b = clean t ∧
      summarize_text gen' t b = summarize_text gen t b := by
  by_cases h0 : t = []
  · subst h0; exact ⟨rfl, rfl⟩
  · have hg : summarize_text gen t b = clean t := by
      rw [summarize_text_eq gen t b h0, if_pos h]
    have hg' : summarize_text gen' t b = clean t := by
      rw [summarize_text_eq gen' t b h0, if_pos h]
    exact ⟨hg, hg'.trans hg.symm⟩

theorem c7_witness :
    summarize_text (fun _ => some ['x']) ['a', 'b'] true = clean ['a', 'b'] ∧
      summarize_text (fun _ => none) ['a', 'b'] true =
        summarize_text (fun _ => some ['x']) ['a', 'b'] true :=
  c7_short_window_returns_clean (fun _ => some ['x']) (fun _ => none)
    ['a', 'b'] true (by decide)

def c7text : Str := 'a' :: ' ' :: ' ' :: ['b']

/-- C7 counterexample: an input whose truncated window is shorter than 50
characters and for which `summarize_text` does not return the input
unchanged (it collapses the double space). -/
theorem c7_counterexample :
    ((clean c7text).take (max_input false)).length < 50 ∧
      summarize_text (fun _ => none) c7text false ≠ c7text := by decide

/-- C6 (amended): when the model invocation raises (`gen` returns `none`
on the prompt that `summarize_text` would send), `summarize_text` returns
the whitespace-normalized input text and propagates no failure. -/
theorem c6_gen_failure_returns_clean (gen : Str → Option Str) (t : Str)
    (b : Bool) (h : gen (prompt ((clean t).take (max_input b))) = none) :
    summarize_text gen t b = clean t := by
  by_cases h0 : t = []
  · subst h0; rfl
  · rw [summarize_text_eq gen t b h0]
    by_cases hlen : ((clean t).take (max_input b)).length < 50
    · rw [if_pos hlen]
    · rw [if_neg hlen, h]

theorem c6_witness :
    summarize_text (fun _ => none) (List.replicate 60 'a') false =
      clean (List.replicate 60 'a') :=
  c6_gen_failure_returns_clean (fun _ => none) (List.replicate 60 'a') false rfl

def c6text : Str := List.replicate 30 'a' ++ ' ' :: ' ' :: List.replicate 30 'b'

/-- C6 counterexample: a 62-character input with a double space on which
the model invocation raises; `summarize_text` returns neither the input
unchanged nor any truncation (prefix) of it, but the normalized text. -/
theorem c6_counterexample :
    summarize_text (fun _ => none) c6text false ≠ c6text ∧
      (summarize_text (fun _ => none) c6text false).isPrefixOf c6text = false := by
  decide

/-! ### Lemmas about input parsing (`pyStrip`, `splitLines`, `parse_urls`) -/

theorem pyStrip_eq_nil_iff (s : Str) :
    pyStrip s = [] ↔ ∀ c ∈ s, c.isWhitespace = true := by
  unfold pyStrip
  rw [List.reverse_eq_nil_iff, List.dropWhile_eq_nil_iff]
  constructor
  · intro h c hc
    have hs := List.takeWhile_append_dropWhile (p := Char.isWhitespace) (l := s)
    rw [← hs] at hc
    rcases List.mem_append.mp hc with h1 | h2
    · exact List.mem_takeWhile_imp h1
    · exact h _ (List.mem_reverse.mpr h2)
  · intro h c hc
    exact h c (List.dropWhile_subset _ (List.mem_reverse.mp hc))

theorem mem_of_mem_splitLines {c : Char} :
    ∀ (s : Str), ∀ part ∈ splitLines s, c ∈ part → c ∈ s := by
  intro s
  induction s with
  | nil =>
    intro part hp hc
    simp [splitLines, splitLinesNE] at hp
    subst hp
    simp at hc
  | cons a rest ih =>
    intro part hp hc
    by_cases ha : a = '\n'
    · have : splitLines (a :: rest) = [] :: splitLines rest := by
        simp [splitLines, splitLinesNE, ha]
      rw [this] at hp
      rcases List.mem_cons.mp hp with rfl | hp'
      · simp at hc
      · exact List.mem_cons_of_mem a (ih part hp' hc)
    · have : splitLines (a :: rest) =
          (a :: (splitLinesNE rest).1) :: (splitLinesNE rest).2 := by
        simp [splitLines, splitLinesNE, ha]
      rw [this] at hp
      rcases List.mem_cons.mp hp with rfl | hp'
      · rcases List.mem_cons.mp hc with rfl | hc'
        · exact List.mem_cons_self c rest
        · exact List.mem_cons_of_mem a
            (ih (splitLinesNE rest).1 (by simp [splitLines]) hc')
      · exact List.mem_cons_of_mem a
          (ih part (by simp [splitLines, hp']) hc)

theorem exists_part_of_mem {c : Char} (hc : c ≠ '\n') :
    ∀ (s : Str), c ∈ s → ∃ part ∈ splitLines s, c ∈ part := by
  intro s
  induction s with
  | nil => intro h; simp at h
  | cons a rest ih =>
    intro h
    by_cases ha : a = '\n'
    · have hsplit : splitLines (a :: rest) = [] :: splitLines rest := by
        simp [splitLines, splitLinesNE, ha]
      rcases List.mem_cons.mp h with rfl | h'
      · exact absurd ha hc
      · rcases ih h' with ⟨part, hp, hcp⟩
        exact ⟨part, by rw [hsplit]; exact List.mem_cons_of_mem [] hp, hcp⟩
    · have hsplit : splitLines (a :: rest) =
          (a :: (splitLinesNE rest).1) :: (splitLinesNE rest).2 := by
        simp [splitLines, splitLinesNE, ha]
      rcases List.mem_cons.mp h with rfl | h'
      · exact ⟨c :: (splitLinesNE rest).1, by rw [hsplit]; simp, by simp⟩
      · rcases ih h' with ⟨part, hp, hcp⟩
        rcases List.mem_cons.mp (show part ∈ splitLines rest from hp) with heq | hmem
        · refine ⟨a :: (splitLinesNE rest).1, by rw [hsplit]; simp, ?_⟩
          rw [← heq]
          exact List.mem_cons_of_mem a hcp
        · exact ⟨part, by rw [hsplit]; exact List.mem_cons_of_mem _ hmem, hcp⟩

theorem parse_urls_eq_nil_iff (s : Str) :
    parse_urls s = [] ↔ pyStrip s = [] := by
  constructor
  · intro h
    rw [pyStrip_eq_nil_iff]
    by_contra hnot
    push_neg at hnot
    rcases hnot with ⟨c, hcs, hcw⟩
    have hcn : c ≠ '\n' := by
      intro heq; subst heq; simp [Char.isWhitespace] at hcw
    rcases exists_part_of_mem hcn s hcs with ⟨part, hp, hcp⟩
    have hne : pyStrip part ≠ [] := fun hnil =>
      hcw ((pyStrip_eq_nil_iff part).mp hnil c hcp)
    have hmem : pyStrip part ∈ parse_urls s := by
      unfold parse_urls
      rw [List.mem_filter]
      exact ⟨List.mem_map_of_mem pyStrip hp, by simpa using hne⟩
    rw [h] at hmem
    simp at hmem
  · intro h
    have hws : ∀ c ∈ s, c.isWhitespace = true := (pyStrip_eq_nil_iff s).mp h
    unfold parse_urls
    rw [List.filter_eq_nil_iff]
    intro l hl
    rcases List.mem_map.mp hl with ⟨part, hpart, rfl⟩
    have : pyStrip part = [] := by
      rw [pyStrip_eq_nil_iff]
      intro c hcp
      exact hws c (mem_of_mem_splitLines s part hpart hcp)
    simp [this]

/-! ### Pipeline driver theorems -/

theorem run_pipeline_empty (fetch gen : Str → Option Str) (input : Str)
    (h : pyStrip input = []) : run_pipeline fetch gen input = .emptyInput := by
  unfold run_pipeline
  rw [if_pos h]

theorem run_pipeline_toomany (fetch gen : Str → Option Str) (input : Str)
    (h1 : pyStrip input ≠ []) (h2 : 5 < (parse_urls input).length) :
    run_pipeline fetch gen input = .tooManyUrls := by
  simp only [run_pipeline]
  rw [if_neg h1, if_pos h2]

/-- C1: whenever the parsed URL list (lines split on newline, trimmed,
blanks discarded) is empty or longer than 5, the pipeline rejects the
request before any processing: the outcome is one of the two rejection
reports, carries no per-article or final summary, and is independent of
the fetch and generation capabilities (zero fetches, zero model calls). -/
theorem c1_invalid_input_rejected (fetch gen fetch' gen' : Str → Option Str)
    (input : Str)
    (h : parse_urls input = [] ∨ 5 < (parse_urls input).length) :
    (run_pipeline fetch gen input = .emptyInput ∨
        run_pipeline fetch gen input = .tooManyUrls) ∧
      run_pipeline fetch gen input = run_pipeline fetch' gen' input := by
  rcases h with h | h
  · have hstrip : pyStrip input = [] := (parse_urls_eq_nil_iff input).mp h
    rw [run_pipeline_empty fetch gen input hstrip,
      run_pipeline_empty fetch' gen' input hstrip]
    exact ⟨Or.inl rfl, rfl⟩
  · have hstrip : pyStrip input ≠ [] := by
      intro hnil
      rw [(parse_urls_eq_nil_iff input).mpr hnil] at h
      simp at h
    rw [run_pipeline_toomany fetch gen input hstrip h,
      run_pipeline_toomany fetch' gen' input hstrip h]
    exact ⟨Or.inr rfl, rfl⟩

def c1input : Str := ("a\nb\nc\nd\ne\nf").data

theorem c1_witness :
    (parse_urls c1input = [] ∨ 5 < (parse_urls c1input).length) ∧
      ((run_pipeline (fun _ => none) (fun _ => none) c1input =
            .emptyInput ∨
          run_pipeline (fun _ => none) (fun _ => none) c1input =
            .tooManyUrls) ∧
        run_pipeline (fun _ => none) (fun _ => none) c1input =
          run_pipeline (fun _ => some ['x']) (fun _ => some ['x']) c1input) :=
  ⟨by decide,
    c1_invalid_input_rejected (fun _ => none) (fun _ => none)
      (fun _ => some ['x']) (fun _ => some ['x']) c1input (by decide)⟩

/-- C3: after per-URL processing, when at least one per-article summary
was produced the pipeline result is the success report whose master
summary is exactly one final-role `summarize_text` call on the
space-joined per-article summaries in input order; when no per-article
summary was produced, the result is the overall-failure report and no
final summary exists. -/
theorem c3_final_summary_branch (fetch gen : Str → Option Str) (input : Str)
    (h1 : parse_urls input ≠ []) (h2 : (parse_urls input).length ≤ 5) :
    (((parse_urls input).map (process_url fetch gen)).filterMap
          (fun r => r.2) ≠ [] →
        run_pipeline fetch gen input =
          .success ((parse_urls input).map (process_url fetch gen))
            (summarize_text gen
              (pyJoin [' ']
                (((parse_urls input).map (process_url fetch gen)).filterMap
                  (fun r => r.2)))
              true)) ∧
      (((parse_urls input).map (process_url fetch gen)).filterMap
          (fun r => r.2) = [] →
        run_pipeline fetch gen input =
          .noValidText ((parse_urls input).map (process_url fetch gen))) := by
  have hstrip : pyStrip input ≠ [] := fun hnil =>
    h1 ((parse_urls_eq_nil_iff input).mpr hnil)
  constructor
  · intro hs
    simp only [run_pipeline]
    rw [if_neg hstrip, if_neg (not_lt.mpr h2), if_pos hs]
  · intro hs
    simp only [run_pipeline]
    rw [if_neg hstrip, if_neg (not_lt.mpr h2), if_neg (by simp [hs])]

def c3fetch : Str → Option Str := fun _ => some (List.replicate 60 'a')

def c3gen : Str → Option Str := fun _ => some ['o', 'k']

theorem c3_witness :
    run_pipeline c3fetch c3gen ['u'] =
      .success ((parse_urls ['u']).map (process_url c3fetch c3gen))
        (summarize_text c3gen
          (pyJoin [' ']
            (((parse_urls ['u']).map (process_url c3fetch c3gen)).filterMap
              (fun r => r.2)))
          true) :=
  (c3_final_summary_branch c3fetch c3gen ['u'] (by decide) (by decide)).1
    (by decide)

theorem process_url_of_fail (fetch gen : Str → Option Str) (url : Str)
    (h : ¬ extraction_ok (fetch url)) :
    process_url fetch gen url = (url, none) := by
  unfold process_url
  cases hf : fetch url with
  | none => rfl
  | some t =>
    rw [hf] at h
    have h' : ¬(t ≠ [] ∧ 50 < t.length) := by simpa [extraction_ok] using h
    simp [h']

theorem process_url_fst (fetch gen : Str → Option Str) (url : Str) :
    (process_url fetch gen url).1 = url := by
  unfold process_url
  cases fetch url with
  | none => rfl
  | some t =>
    split
    · split <;> rfl
    · rfl

theorem filterMap_eraseIdx_of_none {α β : Type} (f : α → Option β) :
    ∀ (l : List α) (i : Nat) (x : α), l[i]? = some x → f x = none →
      l.filterMap f = (l.eraseIdx i).filterMap f := by
  intro l
  induction l with
  | nil => intro i x h _; simp at h
  | cons a t ih =>
    intro i x h hf
    cases i with
    | zero =>
      simp only [List.getElem?_cons_zero, Option.some.injEq] at h
      subst h
      rw [List.eraseIdx_cons_zero, List.filterMap_cons_none hf]
    | succ n =>
      simp only [List.getElem?_cons_succ] at h
      rw [List.eraseIdx_cons_succ]
      cases hfa : f a with
      | none => rw [List.filterMap_cons_none hfa, List.filterMap_cons_none hfa,
          ih n x h hf]
      | some b => rw [List.filterMap_cons_some hfa, List.filterMap_cons_some hfa,
          ih n x h hf]

/-- C2: for a URL list of at most 5 entries, a URL whose extraction fails
(fetch raised, empty text, or text not longer than 50 characters)
contributes no per-article summary: its entry records failure, it is never
handed to the Summarizer, every other URL is processed independently in
the original order, and dropping the failed entry leaves the per-article
summary list unchanged. -/
theorem c2_failed_url_is_isolated (fetch gen : Str → Option Str)
    (urls : List Str) (i : Nat) (hi : i < urls.length)
    (hlen : urls.length ≤ 5)
    (hfail : ¬ extraction_ok (fetch (urls.get ⟨i, hi⟩))) :
    (urls.map (process_url fetch gen)).map Prod.fst = urls ∧
      (urls.map (process_url fetch gen))[i]? =
        some (urls.get ⟨i, hi⟩, none) ∧
      (∀ j (hj : j < urls.length),
          (urls.map (process_url fetch gen))[j]? =
            some (process_url fetch gen (urls.get ⟨j, hj⟩))) ∧
      (urls.map (process_url fetch gen)).filterMap (fun r => r.2) =
        ((urls.map (process_url fetch gen)).eraseIdx i).filterMap
          (fun r => r.2) := by
  have hfst : (urls.map (process_url fetch gen)).map Prod.fst = urls := by
    rw [List.map_map,
      show Prod.fst ∘ process_url fetch gen = fun u => u from
        funext (process_url_fst fetch gen)]
    exact List.map_id urls
  have hentry : ∀ j (hj : j < urls.length),
      (urls.map (process_url fetch gen))[j]? =
        some (process_url fetch gen (urls.get ⟨j, hj⟩)) := by
    intro j hj
    rw [List.getElem?_map, List.getElem?_eq_getElem hj]
    simp [List.get_eq_getElem]
  have hifail : (urls.map (process_url fetch gen))[i]? =
      some (urls.get ⟨i, hi⟩, none) := by
    rw [hentry i hi, process_url_of_fail fetch gen _ hfail]
  refine ⟨hfst, hifail, hentry, ?_⟩
  exact filterMap_eraseIdx_of_none (fun r => r.2)
    (urls.map (process_url fetch gen)) i (urls.get ⟨i, hi⟩, none) hifail rfl

def c2urls : List Str := [['u'], ['v']]

def c2fetch : Str → Option Str := fun url =>
  if url = ['u'] then none else some (List.replicate 60 'a')

theorem c2_witness :
    (c2urls.map (process_url c2fetch c3gen)).map Prod.fst = c2urls ∧
      (c2urls.map (process_url c2fetch c3gen))[0]? =
        some (c2urls.get ⟨0, by decide⟩, none) ∧
      (c2urls.map (process_url c2fetch c3gen))[1]? =
        some (process_url c2fetch c3gen (c2urls.get ⟨1, by decide⟩)) ∧
      (c2urls.map (process_url c2fetch c3gen)).filterMap (fun r => r.2) =
        ((c2urls.map (process_url c2fetch c3gen)).eraseIdx 0).filterMap
          (fun r => r.2) := by
  have h := c2_failed_url_is_isolated c2fetch c3gen c2urls 0 (by decide)
    (by decide) (by decide)
  exact ⟨h.1, h.2.1, h.2.2.1 1 (by decide), h.2.2.2⟩

/-- C9 (implicit): the driver's extraction-success policy is strictly
greater-than-50: extracted text of length at most 50 (even non-empty) is
recorded as a failure and never summarized, while text strictly longer
than 50 characters is summarized with the per-article role. -/
theorem c9_success_policy_is_gt_50 (fetch gen : Str → Option Str)
    (urls : List Str) (i : Nat) (hi : i < urls.length) (t : Str)
    (hf : fetch (urls.get ⟨i, hi⟩) = some t) :
    (t.length ≤ 50 →
        (urls.map (process_url fetch gen))[i]? =
          some (urls.get ⟨i, hi⟩, none)) ∧
      (50 < t.length →
        (urls.map (process_url fetch gen))[i]? =
          some (urls.get ⟨i, hi⟩,
            some (summarize_text gen t false))) := by
  have hentry : (urls.map (process_url fetch gen))[i]? =
      some (process_url fetch gen (urls.get ⟨i, hi⟩)) := by
    rw [List.getElem?_map, List.getElem?_eq_getElem hi]
    simp [List.get_eq_getElem]
  constructor
  · intro hle
    rw [hentry, process_url_of_fail fetch gen _ ?_]
    rw [hf]
    simp [extraction_ok]
    omega
  · intro hgt
    rw [hentry]
    have hne : t ≠ [] := by
      intro hnil
      subst hnil
      simp at hgt
    have hf' : fetch urls[i] = some t := by
      have : urls.get ⟨i, hi⟩ = urls[i] := List.get_eq_getElem urls ⟨i, hi⟩
      rw [← this]
      exact hf
    have hstep : process_url fetch gen (urls.get ⟨i, hi⟩) =
        (urls.get ⟨i, hi⟩, some (summarize_text gen t false)) := by
      simp [process_url, hf', hne, hgt]
    rw [hstep]

def c9urls : List Str := [['w']]

def c9fetch : Str → Option Str := fun _ => some (List.replicate 30 'a')

theorem c9_witness :
    (List.replicate 30 'a').length ≤ 50 ∧
      (c9urls.map (process_url c9fetch c3gen))[0]? =
        some (c9urls.get ⟨0, by decide⟩, none) :=
  ⟨by decide,
    (c9_success_policy_is_gt_50 c9fetch c3gen c9urls 0 (by decide)
      (List.replicate 30 'a') rfl).1 (by decide)⟩

/-! ### Termination bound for the growth loop -/

theorem growLoopC_count_aux (gen : Str → Option Str) (text : Str) :
    ∀ (n : Nat) (chunk summary : Str), text.length - chunk.length ≤ n →
      (growLoopC gen text chunk summary).2 ≤
        (text.length - chunk.length + 500) / 501 := by
  intro n
  induction n with
  | zero =>
    intro chunk summary hle
    have hg : ¬(count_words summary < 200 ∧ chunk.length < text.length) := by
      omega
    rw [growLoopC, dif_neg hg]
    exact Nat.zero_le _
  | succ m ih =>
    intro chunk summary hle
    by_cases hg : count_words summary < 200 ∧ chunk.length < text.length
    · rw [growLoopC, dif_pos hg]
      show (if ha : (text.drop chunk.length).take 500 = [] then
            (some (chunk, summary), 0)
          else
            match gen (prompt (chunk ++ ' ' :: (text.drop chunk.length).take 500)) with
            | none => ((none : Option (Str × Str)), 1)
            | some s =>
              ((growLoopC gen text
                  (chunk ++ ' ' :: (text.drop chunk.length).take 500) s).1,
                (growLoopC gen text
                  (chunk ++ ' ' :: (text.drop chunk.length).take 500) s).2 + 1)).2 ≤
        (text.length - chunk.length + 500) / 501
      have hone : 1 ≤ (text.length - chunk.length + 500) / 501 := by
        have h1 : 1 ≤ text.length - chunk.length := by omega
        have : 501 ≤ text.length - chunk.length + 500 := by omega
        omega
      by_cases hadd : (text.drop chunk.length).take 500 = []
      · rw [dif_pos hadd]
        exact Nat.zero_le _
      · rw [dif_neg hadd]
        cases hgen : gen (prompt (chunk ++ ' ' :: (text.drop chunk.length).take 500)) with
        | none => simpa using hone
        | some s =>
          have hAlen : ((text.drop chunk.length).take 500).length =
              min 500 (text.length - chunk.length) := by
            simp [List.length_take, List.length_drop]
          have hclen : (chunk ++ ' ' :: (text.drop chunk.length).take 500).length =
              chunk.length + 1 + min 500 (text.length - chunk.length) := by
            simp [List.length_append, hAlen]
            omega
          have hrem : text.length -
              (chunk ++ ' ' :: (text.drop chunk.length).take 500).length ≤ m := by
            rw [hclen]; omega
          have hrec := ih (chunk ++ ' ' :: (text.drop chunk.length).take 500) s hrem
          rw [hclen] at hrec
          show (growLoopC gen text
              (chunk ++ ' ' :: (text.drop chunk.length).take 500) s).2 + 1 ≤
            (text.length - chunk.length + 500) / 501
          by_cases hR : text.length - chunk.length ≤ 500
          · have hmin : min 500 (text.length - chunk.length) =
                text.length - chunk.length := by omega
            rw [hmin] at hrec
            have hz : text.length - (chunk.length + 1 +
                (text.length - chunk.length)) = 0 := by omega
            rw [hz] at hrec
            have : (growLoopC gen text
                (chunk ++ ' ' :: (text.drop chunk.length).take 500) s).2 = 0 := by
              omega
            omega
          · have hmin : min 500 (text.length - chunk.length) = 500 := by omega
            rw [hmin] at hrec
            have hz : text.length - (chunk.length + 1 + 500) =
                text.length - chunk.length - 501 := by omega
            rw [hz] at hrec
            have hge : 501 ≤ text.length - chunk.length := by omega
            have hdiv : (text.length - chunk.length - 501 + 500) / 501 + 1 =
                (text.length - chunk.length + 500) / 501 := by
              rw [← Nat.add_div_right _ (by norm_num : 0 < 501)]
              congr 1
              omega
            omega
    · rw [growLoopC, dif_neg hg]
      exact Nat.zero_le _

/-- C8: the final-role word-count-growth loop always terminates, and its
iteration count is bounded by the source length divided by the roughly
500-character increment (precisely: at most `text.length / 500 + 1`
iterations for every model behaviour, including raising ones). -/
theorem c8_grow_loop_iteration_bound (gen : Str → Option Str)
    (text chunk summary : Str) :
    growLoopCount gen text chunk summary ≤ text.length / 500 + 1 := by
  have h1 := growLoopC_count_aux gen text (text.length - chunk.length)
    chunk summary (Nat.le_refl _)
  have h2 : (text.length - chunk.length + 500) / 501 ≤
      (text.length + 500) / 501 := by
    apply Nat.div_le_div_right
    omega
  have h3 : (text.length + 500) / 501 ≤ (text.length + 500) / 500 :=
    Nat.div_le_div_left (by norm_num) (by norm_num)
  have h4 : (text.length + 500) / 500 = text.length / 500 + 1 :=
    Nat.add_div_right _ (by norm_num)
  unfold growLoopCount
  omega

/-! ### The growth loop's window (claim C5) -/

theorem growLoopC_post (gen : Str → Option Str) (text : Str) :
    ∀ (n : Nat) (chunk summary c' s' : Str), text.length - chunk.length ≤ n →
      (growLoopC gen text chunk summary).1 = some (c', s') →
      chunk <+: c' ∧ (200 ≤ count_words s' ∨ text.length ≤ c'.length) := by
  intro n
  induction n with
  | zero =>
    intro chunk summary c' s' hle hres
    have hg : ¬(count_words summary < 200 ∧ chunk.length < text.length) := by
      omega
    rw [growLoopC, dif_neg hg] at hres
    simp only [Option.some.injEq, Prod.mk.injEq] at hres
    rcases hres with ⟨rfl, rfl⟩
    exact ⟨List.prefix_refl _, by omega⟩
  | succ m ih =>
    intro chunk summary c' s' hle hres
    by_cases hg : count_words summary < 200 ∧ chunk.length < text.length
    · rw [growLoopC, dif_pos hg] at hres
      have hAlen : ((text.drop chunk.length).take 500).length =
          min 500 (text.length - chunk.length) := by
        simp [List.length_take, List.length_drop]
      have hadd : (text.drop chunk.length).take 500 ≠ [] := by
        intro hnil
        rw [hnil] at hAlen
        simp at hAlen
        omega
      rw [dif_neg hadd] at hres
      cases hgen : gen (prompt (chunk ++ ' ' :: (text.drop chunk.length).take 500)) with
      | none => rw [hgen] at hres; simp at hres
      | some s =>
        rw [hgen] at hres
        have hrem : text.length -
            (chunk ++ ' ' :: (text.drop chunk.length).take 500).length ≤ m := by
          simp only [List.length_append, List.length_cons]
          omega
        have hrec := ih (chunk ++ ' ' :: (text.drop chunk.length).take 500) s
          c' s' hrem hres
        exact ⟨(List.prefix_append chunk _).trans hrec.1, hrec.2⟩
    · rw [growLoopC, dif_neg hg] at hres
      simp only [Option.some.injEq, Prod.mk.injEq] at hres
      rcases hres with ⟨rfl, rfl⟩
      refine ⟨List.prefix_refl _, ?_⟩
      rw [Decidable.not_and_iff_or_not] at hg
      rcases hg with hg | hg
      · exact Or.inl (by omega)
      · exact Or.inr (by omega)

/-- C5 (amended): on every normal exit of the growth loop, the initial
window is a prefix of the final window (each iteration appends a space and
the at-most-500-character slice of the source starting at the current
window length — so, because of the inserted space, consecutive increments
skip one source character), and the loop exits only when the summary has
reached 200 words or the window length has reached the source length. -/
theorem c5_grow_loop_window (gen : Str → Option Str)
    (text chunk summary c' s' : Str)
    (h : growLoop gen text chunk summary = some (c', s')) :
    chunk <+: c' ∧ (200 ≤ count_words s' ∨ text.length ≤ c'.length) :=
  growLoopC_post gen text (text.length - chunk.length) chunk summary c' s'
    (Nat.le_refl _) h

theorem c5_witness :
    (['a', 'b', 'c'] : Str) <+: ['a', 'b', 'c'] ∧
      (200 ≤ count_words ['x'] ∨
        (['a', 'b', 'c'] : Str).length ≤ (['a', 'b', 'c'] : Str).length) :=
  c5_grow_loop_window (fun _ => some ['x']) ['a', 'b', 'c'] ['a', 'b', 'c']
    ['x'] ['a', 'b', 'c'] ['x']
    (by unfold growLoop; rw [growLoopC, dif_neg (by decide)])

/-- Claim C5's description of the growth: the window is always an initial
portion `text.take pos` of the untruncated source ("the grown window
consists of successive portions of the source"), extended by ~500-char
increments and regenerated until the 200-word floor is met or the source
is exhausted. -/
def claimGrow (gen : Str → Option Str) (text : Str) (pos : Nat)
    (summary : Str) : Option (Nat × Str) :=
  if h : count_words summary < 200 ∧ pos < text.length then
    match gen (prompt (text.take (min (pos + 500) text.length))) with
    | none => none
    | some s => claimGrow gen text (min (pos + 500) text.length) s
  else some (pos, summary)
termination_by text.length - pos
decreasing_by omega

theorem growLoop_exit (gen : Str → Option Str) (text chunk s : Str)
    (hg : ¬(count_words s < 200 ∧ chunk.length < text.length)) :
    growLoop gen text chunk s = some (chunk, s) := by
  unfold growLoop
  rw [growLoopC, dif_neg hg]

theorem growLoop_step (gen : Str → Option Str) (text chunk s s' A : Str)
    (hA : (text.drop chunk.length).take 500 = A)
    (hg : count_words s < 200 ∧ chunk.length < text.length)
    (hadd : A ≠ [])
    (hgen : gen (prompt (chunk ++ ' ' :: A)) = some s') :
    growLoop gen text chunk s = growLoop gen text (chunk ++ ' ' :: A) s' := by
  unfold growLoop
  rw [growLoopC, dif_pos hg]
  show (if ha : (text.drop chunk.length).take 500 = [] then
        (some (chunk, s), 0)
      else
        match gen (prompt (chunk ++ ' ' :: (text.drop chunk.length).take 500)) with
        | none => ((none : Option (Str × Str)), 1)
        | some s' =>
          ((growLoopC gen text
              (chunk ++ ' ' :: (text.drop chunk.length).take 500) s').1,
            (growLoopC gen text
              (chunk ++ ' ' :: (text.drop chunk.length).take 500) s').2 + 1)).1 =
    (growLoopC gen text (chunk ++ ' ' :: A) s').1
  rw [hA, dif_neg hadd, hgen]

theorem claimGrow_exit (gen : Str → Option Str) (text : Str) (pos : Nat)
    (s : Str) (hg : ¬(count_words s < 200 ∧ pos < text.length)) :
    claimGrow gen text pos s = some (pos, s) := by
  rw [claimGrow, dif_neg hg]

theorem claimGrow_step (gen : Str → Option Str) (text : Str) (pos : Nat)
    (s s' : Str) (hg : count_words s < 200 ∧ pos < text.length)
    (hgen : gen (prompt (text.take (min (pos + 500) text.length))) = some s') :
    claimGrow gen text pos s =
      claimGrow gen text (min (pos + 500) text.length) s' := by
  rw [claimGrow, dif_pos hg, hgen]

def c5text : Str := List.replicate 2500 'a' ++ 'b' :: ['a']

def c5gen : Str → Option Str := fun _ => some ['x']

def c5window : Str :=
  (List.replicate 2000 'a' ++ ' ' :: List.replicate 500 'a') ++ ' ' :: ['a']

theorem c5text_length : c5text.length = 2502 := by
  simp [c5text]

theorem c5_take2000 : c5text.take 2000 = List.replicate 2000 'a' := by
  rw [c5text, List.take_append_eq_append_take]
  simp [List.take_replicate]

theorem c5_additional0 :
    (c5text.drop (List.replicate 2000 'a' : Str).length).take 500 =
      List.replicate 500 'a' := by
  rw [List.length_replicate, c5text, List.drop_append_eq_append_drop]
  simp only [List.drop_replicate]
  rw [List.take_append_eq_append_take]
  simp [List.take_replicate]

theorem c5_additional1 :
    (c5text.drop (List.replicate 2000 'a' ++
        ' ' :: List.replicate 500 'a' : Str).length).take 500 = ['a'] := by
  have hlen : (List.replicate 2000 'a' ++
      ' ' :: List.replicate 500 'a' : Str).length = 2501 := by
    simp
  rw [hlen, c5text, List.drop_append_eq_append_drop]
  simp [List.drop_replicate]

/-- C5 counterexample: with a 2502-character source whose character at
index 2500 is `b` and a model that always answers the one-word summary
`x`, the code's loop produces a window that misses the source character
`b`, while the claim's successive-portions window (`text.take 2502`)
contains it — the increments are not successive portions of the source:
each inserted space shifts the next slice by one and drops a character. -/
theorem c5_counterexample :
    growLoop c5gen c5text (c5text.take 2000) ['x'] = some (c5window, ['x']) ∧
      claimGrow c5gen c5text 2000 ['x'] = some (2502, ['x']) ∧
      'b' ∈ c5text.take 2502 ∧ 'b' ∉ c5window := by
  have hwc : count_words ['x'] < 200 := by decide
  refine ⟨?_, ?_, ?_, ?_⟩
  · rw [c5_take2000]
    rw [growLoop_step c5gen c5text (List.replicate 2000 'a') ['x'] ['x']
      (List.replicate 500 'a') c5_additional0
      ⟨hwc, by rw [List.length_replicate, c5text_length]; omega⟩
      (by simp) rfl]
    rw [growLoop_step c5gen c5text
      (List.replicate 2000 'a' ++ ' ' :: List.replicate 500 'a') ['x'] ['x']
      ['a'] c5_additional1
      ⟨hwc, by simp [c5text_length]⟩ (by simp) rfl]
    show growLoop c5gen c5text c5window ['x'] = some (c5window, ['x'])
    rw [growLoop_exit c5gen c5text c5window ['x'] ?_]
    rw [show (c5window : Str).length = 2503 by simp [c5window]]
    rw [c5text_length]
    omega
  · rw [claimGrow_step c5gen c5text 2000 ['x'] ['x'] ⟨hwc, by
      rw [c5text_length]; omega⟩ rfl]
    rw [show min (2000 + 500) c5text.length = 2500 by
      rw [c5text_length]; omega]
    rw [claimGrow_step c5gen c5text 2500 ['x'] ['x'] ⟨hwc, by
      rw [c5text_length]; omega⟩ rfl]
    rw [show min (2500 + 500) c5text.length = 2502 by
      rw [c5text_length]; omega]
    rw [claimGrow_exit c5gen c5text 2502 ['x'] (by rw [c5text_length]; omega)]
  · rw [show c5text.take 2502 = c5text from
      List.take_of_length_le (by rw [c5text_length])]
    exact List.mem_append.mpr (Or.inr (List.mem_cons_self 'b' ['a']))
  · intro hmem
    unfold c5window at hmem
    rcases List.mem_append.mp hmem with h1 | h2
    · rcases List.mem_append.mp h1 with h3 | h4
      · exact absurd (List.mem_replicate.mp h3).2 (by decide)
      · rcases List.mem_cons.mp h4 with h5 | h6
        · exact absurd h5 (by decide)
        · exact absurd (List.mem_replicate.mp h6).2 (by decide)
    · rcases List.mem_cons.mp h2 with h5 | h6
      · exact absurd h5 (by decide)
      · rcases List.mem_cons.mp h6 with h7 | h8
        · exact absurd h7 (by decide)
        · simp at h8

/-! ### The final 1500-word cap (claim C4) -/

/-- Last index in `s` whose character satisfies `p`, as a Python-style
signed index (`-1` when absent); formulated through `reverse`/`findIdx?`,
independently of `pyRfind`. -/
def lastIdxWhere (p : Char → Bool) (s : Str) : Int :=
  match s.reverse.findIdx? p with
  | some i => (s.length : Int) - 1 - i
  | none => -1

theorem pyRfind_eq_lastIdxWhere (c : Char) :
    ∀ s : Str, pyRfind s c = lastIdxWhere (fun a => a == c) s := by
  intro s
  induction s with
  | nil => rfl
  | cons a rest ih =>
    unfold lastIdxWhere
    rw [List.reverse_cons, List.findIdx?_append]
    cases hf : rest.reverse.findIdx? (fun x => x == c) with
    | some i =>
      have hi : i < rest.reverse.length :=
        (List.findIdx?_eq_some_iff_findIdx_eq.mp hf).1
      rw [List.length_reverse] at hi
      have hr : pyRfind rest c = (rest.length : Int) - 1 - i := by
        rw [ih]; unfold lastIdxWhere; rw [hf]
      show (if 0 ≤ pyRfind rest c then pyRfind rest c + 1
          else if a = c then 0 else -1) =
        match (some i).or (([a].findIdx? (fun x => x == c)).map
            (fun j => j + rest.reverse.length)) with
        | some j => ((a :: rest).length : Int) - 1 - j
        | none => -1
      rw [hr, if_pos (by push_cast; omega), Option.or_some]
      show (rest.length : Int) - 1 - i + 1 = ((a :: rest).length : Int) - 1 - i
      rw [List.length_cons]
      push_cast
      omega
    | none =>
      have hr : pyRfind rest c = -1 := by
        rw [ih]; unfold lastIdxWhere; rw [hf]
      show (if 0 ≤ pyRfind rest c then pyRfind rest c + 1
          else if a = c then 0 else -1) =
        match (Option.none).or (([a].findIdx? (fun x => x == c)).map
            (fun j => j + rest.reverse.length)) with
        | some j => ((a :: rest).length : Int) - 1 - j
        | none => -1
      rw [hr, if_neg (by norm_num), Option.none_or]
      by_cases hac : a = c
      · rw [if_pos hac]
        have h1 : ([a].findIdx? (fun x => x == c)) = some 0 := by simp [hac]
        rw [h1]
        show (0 : Int) = ((a :: rest).length : Int) - 1 - (0 + rest.reverse.length)
        rw [List.length_cons, List.length_reverse]
        push_cast
        omega
      · rw [if_neg hac]
        have h1 : ([a].findIdx? (fun x => x == c)) = none := by simp [hac]
        rw [h1]
        rfl

/-- Amended claim C4's description of the cap: truncate to the first 1500
words; unless the result already ends in `.`, `!` or `?`, search backward
for the nearest period `.` (only a period, which is what line 120's
`rfind('.')` looks for) and cut just after it when it lies more than 100
characters in. -/
def capAmendedC4 (summary : Str) : Str :=
  if 1500 < count_words summary then
    let t := pyJoin [' '] ((pySplit summary).take 1500)
    if pyEndsSentence t then t
    else
      let j := lastIdxWhere (fun a => a == '.') t
      if 100 < j then t.take (j.toNat + 1) else t
  else summary

/-- Claim C4's description of the cap as written: truncate to the first
1500 words; unless the result already ends in sentence punctuation,
search backward for the nearest sentence-terminating punctuation among
`.`, `!`, `?` and cut just after it when it lies more than 100 characters
in. -/
def capClaimC4 (summary : Str) : Str :=
  if 1500 < count_words summary then
    let t := pyJoin [' '] ((pySplit summary).take 1500)
    if pyEndsSentence t then t
    else
      let j := lastIdxWhere
        (fun a => (a == '.') || (a == '!') || (a == '?')) t
      if 100 < j then t.take (j.toNat + 1) else t
  else summary

/-- C4 (amended): the cap that `summarize_text` applies for the final role
is exactly the amended description — word-level truncation to 1500 words,
then a backward search for the nearest period only. -/
theorem c4_cap_is_amended_description (s : Str) :
    capSummary s = capAmendedC4 s := by
  simp only [capSummary, capAmendedC4, pyRfind_eq_lastIdxWhere]

theorem lastIdxWhere_unique (p : Char → Bool) (A B : Str) (x : Char)
    (hA : ∀ c ∈ A, p c = false) (hx : p x = true)
    (hB : ∀ c ∈ B, p c = false) :
    lastIdxWhere p (A ++ x :: B) = (A.length : Int) := by
  have hBrev : B.reverse.findIdx? p = none := by
    rw [List.findIdx?_eq_none_iff]
    intro c hc
    simp [hB c (List.mem_reverse.mp hc)]
  have h1 : (B.reverse ++ [x]).findIdx? p = some B.length := by
    rw [List.findIdx?_append, hBrev, Option.none_or]
    simp [hx]
  have h2 : ((B.reverse ++ [x]) ++ A.reverse).findIdx? p = some B.length := by
    rw [List.findIdx?_append, h1, Option.or_some]
  have hrev : (A ++ x :: B).reverse = (B.reverse ++ [x]) ++ A.reverse := by
    rw [List.reverse_append, List.reverse_cons]
  unfold lastIdxWhere
  rw [hrev, h2]
  show ((A ++ x :: B).length : Int) - 1 - B.length = (A.length : Int)
  rw [List.length_append, List.length_cons]
  push_cast
  omega

def c4words : List Str :=
  List.replicate 1498 ['a'] ++ [['b', '!'], ['z'], ['q']]

def c4ex : Str := pyJoin [' '] c4words

theorem c4words_sound :
    ∀ w ∈ c4words, w ≠ [] ∧ ∀ c ∈ w, c.isWhitespace = false := by
  intro w hw
  unfold c4words at hw
  rcases List.mem_append.mp hw with hrep | hexp
  · obtain ⟨-, rfl⟩ := List.mem_replicate.mp hrep
    exact ⟨by simp, by decide⟩
  · fin_cases hexp <;> exact ⟨by simp, by decide⟩

theorem c4_split : pySplit c4ex = c4words :=
  pySplit_pyJoin c4words c4words_sound

theorem c4_count : count_words c4ex = 1501 := by
  rw [count_words, c4_split, c4words]
  simp

theorem c4_take1500 :
    (pySplit c4ex).take 1500 =
      List.replicate 1498 ['a'] ++ [['b', '!'], ['z']] := by
  rw [c4_split, c4words, List.take_append_eq_append_take]
  rw [List.take_replicate, List.length_replicate]
  rfl

theorem lastIdxWhere_none (p : Char → Bool) (s : Str)
    (h : ∀ c ∈ s, p c = false) : lastIdxWhere p s = -1 := by
  unfold lastIdxWhere
  have hnone : s.reverse.findIdx? p = none := by
    rw [List.findIdx?_eq_none_iff]
    intro c hc
    simp [h c (List.mem_reverse.mp hc)]
  rw [hnone]

def c4P : Str := pyJoin [' '] (List.replicate 1498 ['a'])

def c4t : Str := pyJoin [' '] (List.replicate 1498 ['a'] ++ [['b', '!'], ['z']])

theorem c4P_length : c4P.length = 2995 := by
  have h := pyJoin_replicate_singleton_length 'a' 1497
  have h1497 : (1498 : Nat) = 1497 + 1 := by norm_num
  rw [c4P, h1497, h]

theorem c4P_chars : ∀ c ∈ c4P, c = 'a' ∨ c = ' ' := by
  intro c hc
  rcases mem_pyJoin [' '] _ hc with hsep | ⟨w, hw, hcw⟩
  · right; simpa using hsep
  · left
    obtain ⟨-, rfl⟩ := List.mem_replicate.mp hw
    simpa using hcw

theorem c4t_structure :
    c4t = (c4P ++ [' '] ++ ['b']) ++ '!' :: [' ', 'z'] := by
  unfold c4t
  rw [show (List.replicate 1498 ['a'] ++ [['b', '!'], ['z']] : List Str) =
      (List.replicate 1498 ['a'] ++ [['b', '!']]) ++ [['z']] by simp]
  rw [pyJoin_snoc [' '] ['z'] _ (by simp)]
  rw [pyJoin_snoc [' '] ['b', '!'] _ (List.ne_nil_of_length_pos (by simp))]
  simp [c4P, List.append_assoc]

theorem c4t_length : c4t.length = 3000 := by
  rw [c4t_structure]
  simp [c4P_length]

theorem c4t_ends : pyEndsSentence c4t = false := by
  rw [c4t_structure]
  have hlast : ((c4P ++ [' '] ++ ['b']) ++ '!' :: [' ', 'z']).getLast? =
      some 'z' := by simp
  rw [pyEndsSentence, hlast]
  decide

theorem c4t_lastTerm :
    lastIdxWhere (fun a => (a == '.') || (a == '!') || (a == '?')) c4t =
      2997 := by
  rw [c4t_structure]
  rw [lastIdxWhere_unique _ _ _ '!' ?hA (by decide) (by decide)]
  · simp [c4P_length]
  case hA =>
    intro c hc
    rcases List.mem_append.mp hc with hc1 | hc2
    · rcases List.mem_append.mp hc1 with hcP | hcsp
      · rcases c4P_chars c hcP with rfl | rfl <;> decide
      · have : c = ' ' := by simpa using hcsp
        subst this; decide
    · have : c = 'b' := by simpa using hc2
      subst this; decide

theorem c4t_chars : ∀ c ∈ c4t, c ≠ '.' := by
  intro c hc
  rw [c4t_structure] at hc
  rcases List.mem_append.mp hc with hc1 | hc2
  · rcases List.mem_append.mp hc1 with hcP | hcsp
    · rcases List.mem_append.mp hcP with hcQ | hcb
      · rcases c4P_chars c hcQ with rfl | rfl <;> decide
      · have : c = ' ' := by simpa using hcb
        subst this; decide
    · have : c = 'b' := by simpa using hcsp
      subst this; decide
  · rcases List.mem_cons.mp hc2 with rfl | hc3
    · decide
    · rcases List.mem_cons.mp hc3 with rfl | hc4
      · decide
      · have : c = 'z' := by simpa using hc4
        subst this; decide

theorem c4t_lastDot : lastIdxWhere (fun a => a == '.') c4t = -1 := by
  apply lastIdxWhere_none
  intro c hc
  have := c4t_chars c hc
  simpa using this

theorem c4_t_eq : pyJoin [' '] ((pySplit c4ex).take 1500) = c4t := by
  rw [c4_take1500]
  rfl

theorem c4_capSummary : capSummary c4ex = c4t := by
  rw [c4_cap_is_amended_description]
  unfold capAmendedC4
  rw [if_pos (by rw [c4_count]; norm_num)]
  simp only [c4_t_eq, c4t_ends, Bool.false_eq_true, if_false, c4t_lastDot]
  norm_num

theorem c4_capClaim : capClaimC4 c4ex = c4t.take 2998 := by
  unfold capClaimC4
  rw [if_pos (by rw [c4_count]; norm_num)]
  simp only [c4_t_eq, c4t_ends, Bool.false_eq_true, if_false, c4t_lastTerm]
  norm_num
  show (2997 + 1) ⊓ c4t.length = 2998 ⊓ c4t.length
  norm_num

/-- C4 counterexample: a 1501-word final summary containing `!` but no
period.  The code (line 120) searches backward only for `.`, finds none,
and keeps the full 1500-word hard cut; the claim's description — search
backward for the nearest of `.`, `!`, `?` — would cut at the `!` at
position 2997.  So the cap does not implement the claimed rule. -/
theorem c4_counterexample :
    1500 < count_words c4ex ∧ capSummary c4ex ≠ capClaimC4 c4ex := by
  refine ⟨by rw [c4_count]; norm_num, ?_⟩
  rw [c4_capSummary, c4_capClaim]
  intro heq
  have hlen := congrArg List.length heq
  rw [List.length_take, c4t_length] at hlen
  omega
